import Mathlib

/-!
Verification of the card-text similarity pipeline: corpus construction,
text normalization, TF-IDF vectorization and cosine-similarity ranking.

The string-processing and corpus layers are embedded directly from the
program.  The vectorizer and ranking layers embed the documented default
behaviour of the library calls the program makes (raw term counts,
smoothed inverse document frequency `log ((1+N)/(1+df)) + 1`, L2
normalization that leaves all-zero rows untouched, cosine similarity as
dot product of renormalized vectors, and an ascending argsort that is
reversed and sliced with Python semantics).  Real numbers stand in for
floating point, so rounding is abstracted away.  The word tokenizer and
stemmer are external library components; every ranking-level statement
is therefore proved for an arbitrary tokenizer `tok`, and concrete
instances use a plain whitespace tokenizer.  The library argsort is
modelled as a stable ascending sort (its documented stable kind); the
unstable default gives an arbitrary tie order, so conclusions about
tie order below are relative to this stable determinization.
-/

namespace CardSim

/-! ### Text normalization (`preprocessText`) -/

/-- The punctuation characters deleted from card text; braces, slash,
plus and minus are intentionally kept. -/
def punct : String := "!\"#$%&'()*,.:;<=>?@[\\]^_`|~"

/-- Remove every occurrence of `pat` from `text`, scanning left to right
and continuing after each removed occurrence, as Python's
`str.replace pat ""` does (an empty pattern removes nothing). -/
def removeOcc (pat : List Char) (text : List Char) : List Char :=
  match pat, text with
  | [], t => t
  | _ :: _, [] => []
  | p :: ps, c :: t =>
    if List.isPrefixOf (p :: ps) (c :: t) then
      removeOcc (p :: ps) (List.drop ps.length t)
    else
      c :: removeOcc (p :: ps) t
termination_by text.length
decreasing_by
  · simp only [List.length_drop, List.length_cons]; omega
  · simp only [List.length_cons]; omega

/-- Python's `str.split sep` (for the non-empty separator the program
uses): cut the text at each non-overlapping occurrence of `sep`,
scanning left to right, keeping empty pieces. -/
def splitOnL (sep text : List Char) : List (List Char) :=
  match sep, text with
  | [], t => [t]
  | _ :: _, [] => [[]]
  | s :: ss, c :: t =>
    if List.isPrefixOf (s :: ss) (c :: t) then
      [] :: splitOnL (s :: ss) (List.drop ss.length t)
    else
      match splitOnL (s :: ss) t with
      | [] => [[c]]
      | r :: rs => (c :: r) :: rs
termination_by text.length
decreasing_by
  · simp only [List.length_drop, List.length_cons]; omega
  · simp only [List.length_cons]; omega

/-- Lowercasing, character by character (Python `str.lower` on the
ASCII letters that occur in card text). -/
def lowerL (l : List Char) : List Char := l.map Char.toLower

/-- Delete every character belonging to `punct` (the translation table
built from `punct` in the program). -/
def stripPunctL (l : List Char) : List Char :=
  l.filter (fun c => !(punct.data.contains c))

/-- `preprocessText`: delete the card's own name (each ` // `-separated
part of it) from the text, lowercase, then strip punctuation. -/
def preprocessText (input_text : String) (cardName : String) : String :=
  let names := splitOnL (" // ".data) cardName.data
  let namelessText := names.foldl (fun acc n => removeOcc n acc) input_text.data
  ⟨stripPunctL (lowerL namelessText)⟩

/-! ### Card repository, text extraction, exclusion, corpus -/

/-- One face record of a card, as stored in the card database: the
`text` field may be absent. -/
structure CardFace where
  text : Option String
  types : List String
  printings : List String
deriving DecidableEq

/-- The card database: an ordered mapping from card name to the list of
face records of that card. -/
def Repo : Type := List (String × List CardFace)

/-- `getRawText`: concatenate the texts of all faces of the named card
with single spaces, skipping faces that have no text field. -/
def getRawText (repo : Repo) (cardName_str : String) : String :=
  let cardEntry := (List.lookup cardName_str repo).getD []
  " ".intercalate (cardEntry.filterMap (fun face => face.text))

/-- The set codes whose cards are excluded from the corpus. -/
def excludedSets : List String := ["PVAN", "PCEL", "CMB1", "UNH", "UST", "UND", "UGL"]

/-- The first face record of the named card (the entry at index 0 the
program reads). -/
def firstFace (repo : Repo) (cardName_str : String) : CardFace :=
  ((List.lookup cardName_str repo).getD []).headD ⟨none, [], []⟩

/-- `isExcluded`: a card is excluded when its first face has type
`Plane` or `Scheme`, or when the first face's printings meet the
excluded-set list. -/
def isExcluded (repo : Repo) (cardName_str : String) : Bool :=
  let cardEntry := firstFace repo cardName_str
  if cardEntry.types.contains "Plane" || cardEntry.types.contains "Scheme" then true
  else if cardEntry.printings.any (fun p => excludedSets.contains p) then true
  else false

/-- The corpus-building loop: walk the card names in repository order,
skip excluded cards, and append each remaining card's name and cleaned
text to two parallel lists. -/
def constructCorpusAux (repo : Repo) : List String → List String × List String
  | [] => ([], [])
  | cardName :: rest =>
    let tail := constructCorpusAux repo rest
    if isExcluded repo cardName then tail
    else (cardName :: tail.1,
          preprocessText (getRawText repo cardName) cardName :: tail.2)

/-- `constructCorpus`: the parallel lists of card names and cleaned
card texts over all non-excluded cards. -/
def constructCorpus (repo : Repo) : List String × List String :=
  constructCorpusAux repo (repo.map Prod.fst)

/-! ### Tokenization and the vector model

The program tokenizes with an external word tokenizer and stemmer; the
development below is parameterized by the tokenizer `tok`.  The
vectorizer lowercases the input, tokenizes it, and drops stop words;
term counts, document frequencies, the smoothed idf weights, and the
L2-normalized tf-idf vectors follow. -/

/-- The hand-made stop-word list passed to the vectorizer. -/
def my_stop_words : List String :=
  ["a", "an", "and", "and/or", "are", "as", "at", "be", "by", "could", "dont",
   "for", "if", "in", "is", "it", "its", "may", "of", "on", "or", "that",
   "thats", "the", "their", "them", "then", "they", "thi", "those", "to",
   "wa", "where", "with", "you", "your", "—"]

/-- Split a character list at whitespace, keeping the non-empty words
(`acc` holds the reversed current word). -/
def wordsAux : List Char → List Char → List (List Char)
  | acc, [] => if acc = [] then [] else [acc.reverse]
  | acc, c :: t =>
    if c.isWhitespace then
      if acc = [] then wordsAux [] t else acc.reverse :: wordsAux [] t
    else wordsAux (c :: acc) t

/-- A plain whitespace word tokenizer, used as the concrete instance of
the external tokenizer/stemmer in witnesses and counterexamples. -/
def whitespaceTokenize (s : String) : List String :=
  (wordsAux [] s.data).map (fun w => ⟨w⟩)

/-- The vectorizer's analysis of one document: lowercase, tokenize,
drop stop words. -/
def analyzer (tok : String → List String) (stop : List String) (s : String) : List String :=
  (tok ⟨lowerL s.data⟩).filter (fun t => ¬ t ∈ stop)

/-- Term frequency: the raw count of token `t` in document `d`. -/
def tf (tok : String → List String) (stop : List String) (d : String) (t : String) : ℕ :=
  (analyzer tok stop d).count t

/-- The fitted vocabulary: every token of every corpus document. -/
def vocab (tok : String → List String) (stop : List String) (docs : List String) :
    Finset String :=
  ((docs.map (analyzer tok stop)).flatten).toFinset

/-- Document frequency of token `t`: in how many corpus documents it occurs. -/
def df (tok : String → List String) (stop : List String) (docs : List String)
    (t : String) : ℕ :=
  (docs.filter (fun d => tf tok stop d t ≠ 0)).length

/-- The smoothed inverse document frequency the vectorizer computes:
`log ((1 + N) / (1 + df)) + 1` with `N` the corpus size. -/
noncomputable def idf (tok : String → List String) (stop : List String)
    (docs : List String) (t : String) : ℝ :=
  Real.log ((1 + docs.length) / (1 + df tok stop docs t)) + 1

/-- The unnormalized tf-idf vector of a document against the fitted
vocabulary: term frequency times idf on vocabulary tokens, `0` for
out-of-vocabulary tokens. -/
noncomputable def rawVec (tok : String → List String) (stop : List String)
    (docs : List String) (d : String) : String → ℝ :=
  fun t => if t ∈ vocab tok stop docs then (tf tok stop d t : ℝ) * idf tok stop docs t else 0

/-- Euclidean norm of a vector over the vocabulary `V`. -/
noncomputable def vecNorm (V : Finset String) (v : String → ℝ) : ℝ :=
  Real.sqrt (∑ t ∈ V, v t ^ 2)

/-- L2 normalization as the vectorizer performs it: an all-zero row is
left untouched, any other row is divided by its norm. -/
noncomputable def normalizeVec (V : Finset String) (v : String → ℝ) : String → ℝ :=
  if vecNorm V v = 0 then v else fun t => v t / vecNorm V v

/-- The stored (transformed) vector of a document: its tf-idf vector,
L2-normalized. -/
noncomputable def docVec (tok : String → List String) (stop : List String)
    (docs : List String) (d : String) : String → ℝ :=
  normalizeVec (vocab tok stop docs) (rawVec tok stop docs d)

/-- Cosine similarity: dot product of the two renormalized vectors. -/
noncomputable def cosineSim (V : Finset String) (u v : String → ℝ) : ℝ :=
  ∑ t ∈ V, normalizeVec V u t * normalizeVec V v t

/-- The similarity of the query text against every corpus document, in
corpus order. -/
noncomputable def simScores (tok : String → List String) (stop : List String)
    (docs : List String) (q : String) : List ℝ :=
  docs.map (fun d =>
    cosineSim (vocab tok stop docs) (docVec tok stop docs q) (docVec tok stop docs d))

/-! ### Ranking (`getSimilarTexts`, `getSimilarCards`) -/

/-- Ascending argsort of the score list (stable model of the library
argsort): sort index/score pairs by score and keep the indices. -/
noncomputable def argsortAsc (scores : List ℝ) : List ℕ :=
  (List.insertionSort (fun a b : ℕ × ℝ => a.2 ≤ b.2) scores.enum).map Prod.fst

/-- The Python slice `[:-n-1:-1]` applied to the ascending argsort:
reverse it and keep the first `n` entries; `n = 0` keeps nothing and a
negative `n` keeps `length + n` entries. -/
noncomputable def topIndices (scores : List ℝ) (n : ℤ) : List ℕ :=
  (argsortAsc scores).reverse.take
    (if n < 0 then (scores.length + n).toNat else n.toNat)

/-- `getSimilarTexts`: rank all corpus documents against the query text
and return the names of the top `n`. -/
noncomputable def getSimilarTexts (tok : String → List String) (stop : List String)
    (cardNames cardTexts : List String) (cardText : String) (n : ℤ) : List String :=
  (topIndices (simScores tok stop cardTexts cardText) n).map
    (fun idx => cardNames.getD idx "")

/-- `getSimilarCards`: clean the named card's own text and rank the
corpus against it. -/
noncomputable def getSimilarCards (tok : String → List String) (stop : List String)
    (repo : Repo) (cardName : String) (n : ℤ) : List String :=
  let c := constructCorpus repo
  getSimilarTexts tok stop c.1 c.2
    (preprocessText (getRawText repo cardName) cardName) n

/-! ### Lemmas about the text normalizer -/

theorem removeOcc_of_no_occurrence (pat : List Char) :
    ∀ text : List Char, ¬ pat <:+: text → removeOcc pat text = text := by
  intro text
  induction text with
  | nil => intro _; cases pat <;> simp [removeOcc]
  | cons c t ih =>
    intro h
    cases pat with
    | nil => simp [removeOcc]
    | cons p ps =>
      have hpre : ¬ List.isPrefixOf (p :: ps) (c :: t) = true := fun hp =>
        h (List.IsPrefix.isInfix (List.isPrefixOf_iff_prefix.mp hp))
      simp only [removeOcc, if_neg hpre]
      rw [ih (fun hi => h (List.infix_cons hi))]

theorem removeOcc_nil_text (pat : List Char) : removeOcc pat [] = [] := by
  cases pat <;> simp [removeOcc]

/-- Removing a list of names, none of which occurs in the text (or is
empty), changes nothing. -/
theorem foldl_removeOcc_id (input : List Char) (names : List (List Char))
    (h : ∀ sub ∈ names, sub = [] ∨ ¬ sub <:+: input) :
    names.foldl (fun acc n => removeOcc n acc) input = input := by
  induction names with
  | nil => rfl
  | cons n ns ih =>
    have h1 : removeOcc n input = input := by
      rcases h n (List.mem_cons_self n ns) with he | hni
      · rw [he]; simp [removeOcc]
      · rw [removeOcc_of_no_occurrence _ _ hni]
    simp only [List.foldl_cons, h1]
    exact ih (fun s hs => h s (List.mem_cons_of_mem _ hs))

theorem foldl_removeOcc_empty (names : List (List Char)) :
    names.foldl (fun acc n => removeOcc n acc) [] = [] := by
  induction names with
  | nil => rfl
  | cons n ns ih =>
    have h1 : removeOcc n [] = [] := by
      cases n <;> simp [removeOcc]
    simp only [List.foldl_cons, h1, ih]

theorem toLower_toLower (c : Char) : c.toLower.toLower = c.toLower := by
  have key : ∀ d : Char, ¬ (d.toNat ≥ 65 ∧ d.toNat ≤ 90) → d.toLower = d := by
    intro d hd
    simp only [Char.toLower]
    exact if_neg hd
  by_cases h : c.toNat ≥ 65 ∧ c.toNat ≤ 90
  · have h1 : c.toLower = Char.ofNat (c.toNat + 32) := by
      simp only [Char.toLower]
      exact if_pos h
    have hv : (c.toNat + 32).isValidChar := Or.inl (by omega)
    have ht : (Char.ofNat (c.toNat + 32)).toNat = c.toNat + 32 := by
      rw [Char.ofNat, dif_pos hv]; rfl
    rw [h1]
    refine key _ ?_
    rw [ht]
    omega
  · rw [key c h, key c h]

/-- Lowercasing fixes any character list whose characters are already
lowercase-stable, in particular any already-lowercased list. -/
theorem lowerL_fixed (l : List Char) (h : ∀ c ∈ l, c.toLower = c) :
    lowerL l = l := by
  unfold lowerL
  exact (List.map_congr_left h).trans (List.map_id l)

/-- Every character of a lowercased list is lowercase-stable. -/
theorem mem_lowerL_fixed (x : List Char) :
    ∀ c ∈ lowerL x, c.toLower = c := by
  intro c hc
  unfold lowerL at hc
  obtain ⟨c0, _, rfl⟩ := List.mem_map.mp hc
  exact toLower_toLower c0

theorem stripPunctL_idem (l : List Char) : stripPunctL (stripPunctL l) = stripPunctL l := by
  unfold stripPunctL
  exact List.filter_eq_self.mpr (fun a ha => (List.mem_filter.mp ha).2)

/-- Characters survive `stripPunctL` unchanged, so lowercase-stability
is preserved. -/
theorem mem_stripPunctL_subset (l : List Char) :
    ∀ c ∈ stripPunctL l, c ∈ l := by
  intro c hc
  unfold stripPunctL at hc
  exact (List.mem_filter.mp hc).1

/-- `preprocessText` applied to an already-normalized text whose
remaining card-name parts are empty or absent is the identity. -/
theorem preprocess_of_normalized (x : List Char) (t name : String)
    (hx : t.data = stripPunctL (lowerL x))
    (h : ∀ sub ∈ splitOnL (" // ".data) name.data, sub = [] ∨ ¬ sub <:+: t.data) :
    preprocessText t name = t := by
  show (⟨stripPunctL (lowerL
    (List.foldl (fun acc n => removeOcc n acc) t.data
      (splitOnL (" // ".data) name.data)))⟩ : String) = t
  rw [foldl_removeOcc_id t.data _ h]
  have hlow : lowerL t.data = t.data := by
    refine lowerL_fixed t.data (fun c hc => ?_)
    rw [hx] at hc
    exact mem_lowerL_fixed x c (mem_stripPunctL_subset _ c hc)
  rw [hlow, hx, stripPunctL_idem, ← hx]

/-! ### Claims C6 and C7: the text normalizer -/

/-- C6: normalizing the input text `"{T}: Add {W}."` with a card name
none of whose ` // `-separated parts occurs in it produces exactly
`"{t} add {w}"`: braces retained, colon and period removed, letters
lowercased. -/
theorem C6_symbol_preservation (cardName : String)
    (h : ∀ sub ∈ splitOnL (" // ".data) cardName.data,
      ¬ sub <:+: ("{T}: Add {W}." : String).data) :
    preprocessText "{T}: Add {W}." cardName = "{t} add {w}" := by
  show (⟨stripPunctL (lowerL
    (List.foldl (fun acc n => removeOcc n acc) ("{T}: Add {W}." : String).data
      (splitOnL (" // ".data) cardName.data)))⟩ : String) = "{t} add {w}"
  rw [foldl_removeOcc_id _ _ (fun s hs => Or.inr (h s hs))]
  decide

theorem splitOnL_of_no_occurrence (sep : List Char) (hne : sep ≠ []) :
    ∀ text : List Char, ¬ sep <:+: text → splitOnL sep text = [text] := by
  intro text
  induction text with
  | nil =>
    intro _
    cases sep with
    | nil => exact absurd rfl hne
    | cons s ss => simp [splitOnL]
  | cons c t ih =>
    intro h
    cases sep with
    | nil => exact absurd rfl hne
    | cons s ss =>
      have hpre : ¬ List.isPrefixOf (s :: ss) (c :: t) = true := fun hp =>
        h (List.IsPrefix.isInfix (List.isPrefixOf_iff_prefix.mp hp))
      simp only [splitOnL, if_neg hpre]
      rw [ih (fun hi => h (List.infix_cons hi))]

theorem C6_symbol_preservation_witness :
    preprocessText "{T}: Add {W}." "Lightning Bolt" = "{t} add {w}" := by
  refine C6_symbol_preservation "Lightning Bolt" ?_
  rw [splitOnL_of_no_occurrence _ (by decide) _ (by decide)]
  intro sub hsub
  rw [List.mem_singleton.mp hsub]
  decide

/-- C7: text normalization is idempotent — re-applying
`preprocessText` to an output of `preprocessText`, with a name that is
empty or whose parts no longer occur in that output, returns it
unchanged. -/
theorem C7_preprocess_idempotent (s name0 name : String)
    (h : ∀ sub ∈ splitOnL (" // ".data) name.data,
      sub = [] ∨ ¬ sub <:+: (preprocessText s name0).data) :
    preprocessText (preprocessText s name0) name = preprocessText s name0 :=
  preprocess_of_normalized
    (List.foldl (fun acc n => removeOcc n acc) s.data
      (splitOnL (" // ".data) name0.data))
    (preprocessText s name0) name rfl h

theorem C7_preprocess_idempotent_witness :
    preprocessText (preprocessText "Target creature gets +3/+3." "Giant Growth") "" =
      preprocessText "Target creature gets +3/+3." "Giant Growth" :=
  C7_preprocess_idempotent "Target creature gets +3/+3." "Giant Growth" "" (by
    intro sub hsub
    have hs : splitOnL (" // ".data) ("" : String).data = [[]] := by simp [splitOnL]
    rw [hs] at hsub
    exact Or.inl (List.mem_singleton.mp hsub))

/-! ### Claims C8, C9, C10: exclusion filter and corpus construction -/

theorem mem_keys_of_lookup {repo : Repo} {name : String} {v : List CardFace}
    (h : List.lookup name repo = some v) : name ∈ repo.map Prod.fst := by
  induction repo with
  | nil => simp [List.lookup] at h
  | cons e rest ih =>
    obtain ⟨k, b⟩ := e
    rw [List.lookup] at h
    cases hbeq : name == k with
    | true =>
      rw [List.map_cons]
      exact (eq_of_beq hbeq) ▸ List.mem_cons_self name _
    | false =>
      rw [hbeq] at h
      exact List.mem_cons_of_mem _ (ih h)

/-- Membership in the names half of the corpus: exactly the iterated
names that the exclusion filter lets through. -/
theorem mem_corpusAux_names (repo : Repo) (l : List String) (name : String) :
    name ∈ (constructCorpusAux repo l).1 ↔
      name ∈ l ∧ isExcluded repo name = false := by
  induction l with
  | nil => simp [constructCorpusAux]
  | cons c rest ih =>
    by_cases hc : isExcluded repo c
    · simp only [constructCorpusAux, if_pos hc, ih, List.mem_cons]
      constructor
      · rintro ⟨h1, h2⟩
        exact ⟨Or.inr h1, h2⟩
      · rintro ⟨h1 | h1, h2⟩
        · rw [h1] at h2
          rw [h2] at hc
          cases hc
        · exact ⟨h1, h2⟩
    · simp only [constructCorpusAux, if_neg hc, List.mem_cons, ih]
      constructor
      · rintro (rfl | ⟨h1, h2⟩)
        · exact ⟨Or.inl rfl, Bool.not_eq_true _ ▸ (by simpa using hc)⟩
        · exact ⟨Or.inr h1, h2⟩
      · rintro ⟨rfl | h1, h2⟩
        · exact Or.inl rfl
        · exact Or.inr ⟨h1, h2⟩

/-- The name/text pair appended for a non-excluded card that is among
the iterated names. -/
theorem zip_corpusAux_mem (repo : Repo) (l : List String) (name : String)
    (hmem : name ∈ l) (hexc : isExcluded repo name = false) :
    (name, preprocessText (getRawText repo name) name) ∈
      ((constructCorpusAux repo l).1.zip (constructCorpusAux repo l).2) := by
  induction l with
  | nil => cases hmem
  | cons c rest ih =>
    rcases List.mem_cons.mp hmem with rfl | hr
    · simp [constructCorpusAux, hexc]
    · by_cases hc : isExcluded repo c
      · simpa [constructCorpusAux, hc] using ih hr
      · simp only [constructCorpusAux, if_neg hc]
        exact List.mem_cons_of_mem _ (ih hr)

/-- C8: a card whose first face's printings meet the configured
excluded-set list is excluded, hence absent from the names sequence of
the corpus. -/
theorem C8_excluded_printing_absent (repo : Repo) (cardName : String)
    (h : ∃ p ∈ (firstFace repo cardName).printings, p ∈ excludedSets) :
    cardName ∉ (constructCorpus repo).1 := by
  have hexc : isExcluded repo cardName = true := by
    obtain ⟨p, hp, hpe⟩ := h
    simp only [isExcluded]
    simp
    exact Or.inr ⟨p, hp, hpe⟩
  intro hmem
  rw [constructCorpus, mem_corpusAux_names] at hmem
  rw [hexc] at hmem
  cases hmem.2

theorem C8_excluded_printing_absent_witness :
    "Chaos Confetti" ∉
      (constructCorpus
        [("Chaos Confetti", [⟨some "Throw this card from a distance.",
          ["Artifact"], ["UGL"]⟩])]).1 :=
  C8_excluded_printing_absent _ _ ⟨"UGL", by decide, by decide⟩

/-- C9: the exclusion decision reads only the first face: a card whose
first face has no excluded type and no excluded printing code is not
excluded and enters the corpus, whatever its later faces contain. -/
theorem C9_first_face_only (repo : Repo) (cardName : String)
    (f0 : CardFace) (rest : List CardFace)
    (hlk : List.lookup cardName repo = some (f0 :: rest))
    (hty : "Plane" ∉ f0.types ∧ "Scheme" ∉ f0.types)
    (hpr : ∀ p ∈ f0.printings, p ∉ excludedSets) :
    isExcluded repo cardName = false ∧ cardName ∈ (constructCorpus repo).1 := by
  have hff : firstFace repo cardName = f0 := by
    unfold firstFace
    rw [hlk]
    rfl
  have hexc : isExcluded repo cardName = false := by
    simp only [isExcluded, hff]
    simp
    exact ⟨⟨hty.1, hty.2⟩, hpr⟩
  refine ⟨hexc, ?_⟩
  rw [constructCorpus, mem_corpusAux_names]
  exact ⟨mem_keys_of_lookup hlk, hexc⟩

theorem C9_first_face_only_witness :
    isExcluded
      [("Fiery Expanse",
        [(⟨some "Deals 2 damage.", ["Instant"], ["LEA"]⟩ : CardFace),
         ⟨some "A strange land.", ["Plane"], ["UGL"]⟩])] "Fiery Expanse" = false ∧
    "Fiery Expanse" ∈
      (constructCorpus
        [("Fiery Expanse",
          [(⟨some "Deals 2 damage.", ["Instant"], ["LEA"]⟩ : CardFace),
           ⟨some "A strange land.", ["Plane"], ["UGL"]⟩])]).1 :=
  C9_first_face_only _ _ _ _ rfl (by decide) (by decide)

/-- `preprocessText` of the empty string is the empty string. -/
theorem preprocessText_empty (name : String) : preprocessText "" name = "" := by
  show (⟨stripPunctL (lowerL
    (List.foldl (fun acc n => removeOcc n acc) ("" : String).data
      (splitOnL (" // ".data) name.data)))⟩ : String) = ""
  rw [show ("" : String).data = [] from rfl, foldl_removeOcc_empty]
  rfl

/-- C10: a card present in the repository none of whose faces has a
text field yields the empty raw text (no error), and, when not
excluded, is still paired with the empty normalized document in the
corpus. -/
theorem C10_missing_text_empty (repo : Repo) (cardName : String)
    (faces : List CardFace)
    (hlk : List.lookup cardName repo = some faces)
    (hnt : ∀ f ∈ faces, f.text = none) :
    getRawText repo cardName = "" ∧
    (isExcluded repo cardName = false →
      (cardName, "") ∈
        ((constructCorpus repo).1.zip (constructCorpus repo).2)) := by
  have hraw : getRawText repo cardName = "" := by
    unfold getRawText
    rw [hlk]
    show " ".intercalate (faces.filterMap (fun face => face.text)) = ""
    rw [List.filterMap_eq_nil_iff.mpr hnt]
    rfl
  refine ⟨hraw, fun hexc => ?_⟩
  have := zip_corpusAux_mem repo (repo.map Prod.fst) cardName
    (mem_keys_of_lookup hlk) hexc
  rw [hraw, preprocessText_empty] at this
  exact this

theorem C10_missing_text_empty_witness :
    getRawText [("Faceless One", [(⟨none, ["Creature"], ["LEA"]⟩ : CardFace)])]
      "Faceless One" = "" ∧
    (isExcluded [("Faceless One", [(⟨none, ["Creature"], ["LEA"]⟩ : CardFace)])]
        "Faceless One" = false →
      ("Faceless One", "") ∈
        ((constructCorpus [("Faceless One",
            [(⟨none, ["Creature"], ["LEA"]⟩ : CardFace)])]).1.zip
          (constructCorpus [("Faceless One",
            [(⟨none, ["Creature"], ["LEA"]⟩ : CardFace)])]).2)) :=
  C10_missing_text_empty _ _ _ rfl (by decide)

/-! ### Stability of the modelled argsort -/

/-- Strict "earlier after the stable ascending sort" order on
index/score pairs: smaller score first, ties by smaller index. -/
def ltLex (a b : ℕ × ℝ) : Prop := a.2 < b.2 ∨ (a.2 = b.2 ∧ a.1 < b.1)

theorem ltLex_trans {a b c : ℕ × ℝ} (h1 : ltLex a b) (h2 : ltLex b c) : ltLex a c := by
  rcases h1 with h1 | ⟨h1e, h1i⟩ <;> rcases h2 with h2 | ⟨h2e, h2i⟩
  · exact Or.inl (h1.trans h2)
  · exact Or.inl (h2e ▸ h1)
  · exact Or.inl (h1e ▸ h2)
  · exact Or.inr ⟨h1e.trans h2e, h1i.trans h2i⟩

theorem pairwise_orderedInsert_stable (x : ℕ × ℝ) (l : List (ℕ × ℝ))
    (hl : l.Pairwise ltLex) (hx : ∀ y ∈ l, x.1 < y.1) :
    (List.orderedInsert (fun a b : ℕ × ℝ => a.2 ≤ b.2) x l).Pairwise ltLex := by
  induction l with
  | nil => simp [List.orderedInsert, List.pairwise_singleton]
  | cons b t ih =>
    simp only [List.orderedInsert]
    by_cases hle : x.2 ≤ b.2
    · rw [if_pos hle]
      have hxb : ltLex x b := by
        rcases lt_or_eq_of_le hle with h | h
        · exact Or.inl h
        · exact Or.inr ⟨h, hx b (List.mem_cons_self b t)⟩
      refine List.Pairwise.cons (fun z hz => ?_) hl
      rcases List.mem_cons.mp hz with rfl | hzt
      · exact hxb
      · exact ltLex_trans hxb ((List.pairwise_cons.mp hl).1 z hzt)
    · rw [if_neg hle]
      refine List.Pairwise.cons (fun z hz => ?_)
        (ih (List.Pairwise.of_cons hl) (fun y hy => hx y (List.mem_cons_of_mem _ hy)))
      rcases (List.mem_orderedInsert _).mp hz with rfl | hzt
      · exact Or.inl (lt_of_not_le hle)
      · exact (List.pairwise_cons.mp hl).1 z hzt

/-- Stability: sorting pairs with strictly increasing indices by score
yields a list in which equal scores keep their index order. -/
theorem pairwise_insertionSort_stable (l : List (ℕ × ℝ))
    (h : l.Pairwise (fun a b => a.1 < b.1)) :
    (List.insertionSort (fun a b : ℕ × ℝ => a.2 ≤ b.2) l).Pairwise ltLex := by
  induction l with
  | nil => simp
  | cons x xs ih =>
    rw [List.insertionSort]
    exact pairwise_orderedInsert_stable x _ (ih h.of_cons)
      (fun y hy => (List.pairwise_cons.mp h).1 y ((List.mem_insertionSort _).mp hy))

theorem enum_pairwise_fst (l : List ℝ) :
    l.enum.Pairwise (fun a b => a.1 < b.1) := by
  have h1 : (l.enum.map Prod.fst).Pairwise (· < ·) := by
    rw [List.enum_map_fst]
    exact List.pairwise_lt_range l.length
  exact List.pairwise_map.mp h1

/-- The reversed stable ascending sort ranks larger scores first and,
among equal scores, larger indices first. -/
theorem ranked_pairwise (scores : List ℝ) :
    ((List.insertionSort (fun a b : ℕ × ℝ => a.2 ≤ b.2) scores.enum).reverse).Pairwise
      (fun a b => ltLex b a) := by
  rw [List.pairwise_reverse]
  exact pairwise_insertionSort_stable _ (enum_pairwise_fst scores)

/-- Every pair surviving the sort carries the score stored at its
index. -/
theorem snd_eq_getD_of_mem_sorted {scores : List ℝ} {x : ℕ × ℝ}
    (hx : x ∈ List.insertionSort (fun a b : ℕ × ℝ => a.2 ≤ b.2) scores.enum) :
    x.2 = scores.getD x.1 0 := by
  have hx' : x ∈ scores.enum := (List.mem_insertionSort _).mp hx
  obtain ⟨i, s⟩ := x
  have hme := List.mem_enum hx'
  simp only
  rw [List.getD_eq_getElem?_getD, List.getElem?_eq_getElem hme.1]
  exact hme.2 ▸ rfl

/-- The ranked index list as a map over the sorted pair list. -/
theorem topIndices_eq_map (scores : List ℝ) (n : ℤ) :
    topIndices scores n =
      ((List.insertionSort (fun a b : ℕ × ℝ => a.2 ≤ b.2) scores.enum).reverse.take
        (if n < 0 then (scores.length + n).toNat else n.toNat)).map Prod.fst := by
  rw [topIndices, argsortAsc, ← List.map_reverse, ← List.map_take]

/-! ### Norms and cosine scores -/

theorem sum_sq_nonneg (V : Finset String) (v : String → ℝ) :
    0 ≤ ∑ t ∈ V, v t ^ 2 :=
  Finset.sum_nonneg (fun t _ => sq_nonneg (v t))

theorem sq_vecNorm (V : Finset String) (v : String → ℝ) :
    vecNorm V v ^ 2 = ∑ t ∈ V, v t ^ 2 :=
  Real.sq_sqrt (sum_sq_nonneg V v)

theorem vecNorm_normalizeVec {V : Finset String} {v : String → ℝ}
    (h : vecNorm V v ≠ 0) : vecNorm V (normalizeVec V v) = 1 := by
  have hb : normalizeVec V v = fun t => v t / vecNorm V v := by
    unfold normalizeVec
    rw [if_neg h]
  rw [hb]
  rw [show vecNorm V (fun t => v t / vecNorm V v) =
    Real.sqrt (∑ t ∈ V, (v t / vecNorm V v) ^ 2) from rfl]
  have hsum : ∑ t ∈ V, (v t / vecNorm V v) ^ 2 =
      (∑ t ∈ V, v t ^ 2) / vecNorm V v ^ 2 := by
    rw [Finset.sum_div]
    exact Finset.sum_congr rfl (fun t _ => div_pow (v t) _ 2)
  rw [hsum, ← sq_vecNorm V v, div_self (pow_ne_zero 2 h), Real.sqrt_one]

theorem cosineSim_self {V : Finset String} {v : String → ℝ}
    (h : vecNorm V v ≠ 0) :
    cosineSim V (normalizeVec V v) (normalizeVec V v) = 1 := by
  unfold cosineSim
  have h1 : vecNorm V (normalizeVec V v) = 1 := vecNorm_normalizeVec h
  have hsq : ∀ t ∈ V, normalizeVec V (normalizeVec V v) t *
      normalizeVec V (normalizeVec V v) t =
      normalizeVec V (normalizeVec V v) t ^ 2 := fun t _ => (sq _).symm
  rw [Finset.sum_congr rfl hsq, ← sq_vecNorm,
    vecNorm_normalizeVec (h1 ▸ one_ne_zero), one_pow]

/-- The stored vector of a document scores `1.0` against itself
whenever its raw tf-idf vector is non-zero. -/
theorem docVec_self_score (tok : String → List String) (stop : List String)
    (docs : List String) (d : String)
    (h : vecNorm (vocab tok stop docs) (rawVec tok stop docs d) ≠ 0) :
    cosineSim (vocab tok stop docs) (docVec tok stop docs d)
      (docVec tok stop docs d) = 1 :=
  cosineSim_self h

theorem mem_vocab_of_mem_analyzer {tok : String → List String} {stop : List String}
    {docs : List String} {d t0 : String}
    (hd : d ∈ docs) (ht : t0 ∈ analyzer tok stop d) :
    t0 ∈ vocab tok stop docs := by
  unfold vocab
  rw [List.mem_toFinset, List.mem_flatten]
  exact ⟨analyzer tok stop d, List.mem_map_of_mem _ hd, ht⟩

/-- The smoothed idf weight is always at least `1`. -/
theorem one_le_idf (tok : String → List String) (stop : List String)
    (docs : List String) (t : String) : 1 ≤ idf tok stop docs t := by
  unfold idf
  have hdf : (df tok stop docs t : ℝ) ≤ (docs.length : ℝ) := by
    exact_mod_cast List.length_filter_le _ docs
  have h1 : (1 : ℝ) ≤ (1 + docs.length) / (1 + df tok stop docs t) := by
    rw [one_le_div (by positivity)]
    linarith
  linarith [Real.log_nonneg h1]

/-- A corpus document with at least one analyzed token has a non-zero
raw tf-idf vector. -/
theorem rawVec_norm_ne_zero (tok : String → List String) (stop : List String)
    (docs : List String) (d t0 : String)
    (hd : d ∈ docs) (ht : t0 ∈ analyzer tok stop d) :
    vecNorm (vocab tok stop docs) (rawVec tok stop docs d) ≠ 0 := by
  rw [vecNorm, Real.sqrt_ne_zero']
  have hv : t0 ∈ vocab tok stop docs := mem_vocab_of_mem_analyzer hd ht
  have htf : 0 < tf tok stop d t0 := List.count_pos_iff.mpr ht
  have hval : 1 ≤ rawVec tok stop docs d t0 := by
    unfold rawVec
    rw [if_pos hv]
    have h1 : (1 : ℝ) ≤ (tf tok stop d t0 : ℝ) := by exact_mod_cast htf
    nlinarith [one_le_idf tok stop docs t0]
  calc (0 : ℝ) < rawVec tok stop docs d t0 ^ 2 := by nlinarith
    _ ≤ ∑ t ∈ vocab tok stop docs, rawVec tok stop docs d t ^ 2 :=
      Finset.single_le_sum (fun t _ => sq_nonneg (rawVec tok stop docs d t)) hv

/-! ### Claims C2 and C4: ranking order and prefix monotonicity -/

/-- C2 (amended): the ranking behind `getSimilarTexts` lists scores in
non-increasing order, but entries with equal scores appear in reverse
corpus order (the code reverses a stable ascending argsort), not in
corpus insertion order. -/
theorem C2_ties_reverse_corpus_order (tok : String → List String) (stop : List String)
    (docs : List String) (q : String) (n : ℤ) :
    (topIndices (simScores tok stop docs q) n).Pairwise
      (fun i j =>
        (simScores tok stop docs q).getD j 0 < (simScores tok stop docs q).getD i 0 ∨
        ((simScores tok stop docs q).getD j 0 = (simScores tok stop docs q).getD i 0 ∧
          j < i)) := by
  rw [topIndices_eq_map]
  refine List.pairwise_map.mpr ?_
  have hpw : ((List.insertionSort (fun a b : ℕ × ℝ => a.2 ≤ b.2)
      (simScores tok stop docs q).enum).reverse.take
        (if n < 0 then ((simScores tok stop docs q).length + n).toNat
         else n.toNat)).Pairwise (fun a b => ltLex b a) :=
    List.Pairwise.sublist (List.take_sublist _ _)
      (ranked_pairwise (simScores tok stop docs q))
  refine hpw.imp_of_mem ?_
  intro a b ha hb hab
  have ha' := snd_eq_getD_of_mem_sorted
    (List.mem_reverse.mp (List.mem_of_mem_take ha))
  have hb' := snd_eq_getD_of_mem_sorted
    (List.mem_reverse.mp (List.mem_of_mem_take hb))
  rcases hab with h | ⟨he, hi⟩
  · exact Or.inl (by rw [← ha', ← hb']; exact h)
  · exact Or.inr ⟨by rw [← ha', ← hb']; exact he, hi⟩

/-- C4: for valid counts `n1 < n2`, the top-`n1` name list is a prefix
of the top-`n2` name list. -/
theorem C4_prefix_monotone (tok : String → List String) (stop : List String)
    (cardNames cardTexts : List String) (cardText : String) (n1 n2 : ℤ)
    (h1 : 1 ≤ n1) (h12 : n1 < n2) :
    getSimilarTexts tok stop cardNames cardTexts cardText n1 <+:
      getSimilarTexts tok stop cardNames cardTexts cardText n2 := by
  unfold getSimilarTexts
  refine List.IsPrefix.map _ ?_
  unfold topIndices
  rw [if_neg (by omega : ¬ n1 < 0), if_neg (by omega : ¬ n2 < 0)]
  have hab : n1.toNat ≤ n2.toNat := by omega
  have hh : (argsortAsc (simScores tok stop cardTexts cardText)).reverse.take n1.toNat =
      ((argsortAsc (simScores tok stop cardTexts cardText)).reverse.take
        n2.toNat).take n1.toNat := by
    rw [List.take_take, min_eq_left hab]
  rw [hh]
  exact List.take_prefix _ _

theorem C4_prefix_monotone_witness :
    getSimilarTexts whitespaceTokenize my_stop_words ["A"] ["x"] "x" 1 <+:
      getSimilarTexts whitespaceTokenize my_stop_words ["A"] ["x"] "x" 2 :=
  C4_prefix_monotone whitespaceTokenize my_stop_words ["A"] ["x"] "x" 1 2
    (by decide) (by decide)

theorem normSq_normalize_le_one (V : Finset String) (v : String → ℝ) :
    vecNorm V (normalizeVec V v) ^ 2 ≤ 1 := by
  by_cases h : vecNorm V v = 0
  · unfold normalizeVec
    rw [if_pos h, h]
    norm_num
  · rw [vecNorm_normalizeVec h]
    norm_num

/-- Cosine similarity never exceeds `1` (Cauchy–Schwarz on the
renormalized vectors). -/
theorem cosineSim_le_one (V : Finset String) (u v : String → ℝ) :
    cosineSim V u v ≤ 1 := by
  have hcs := Finset.sum_mul_sq_le_sq_mul_sq V
    (fun t => normalizeVec V u t) (fun t => normalizeVec V v t)
  have ha : ∑ t ∈ V, normalizeVec V u t ^ 2 ≤ 1 := by
    rw [← sq_vecNorm]
    exact normSq_normalize_le_one V u
  have hb : ∑ t ∈ V, normalizeVec V v t ^ 2 ≤ 1 := by
    rw [← sq_vecNorm]
    exact normSq_normalize_le_one V v
  have hb0 : 0 ≤ ∑ t ∈ V, normalizeVec V v t ^ 2 := sum_sq_nonneg V _
  have hsq : cosineSim V u v ^ 2 ≤ 1 := by
    unfold cosineSim
    calc (∑ t ∈ V, normalizeVec V u t * normalizeVec V v t) ^ 2 ≤
        (∑ t ∈ V, normalizeVec V u t ^ 2) * ∑ t ∈ V, normalizeVec V v t ^ 2 := hcs
      _ ≤ 1 := by nlinarith
  have habs : |cosineSim V u v| ≤ 1 := (sq_le_one_iff_abs_le_one (cosineSim V u v)).mp hsq
  exact (abs_le.mp habs).2

theorem simScores_length (tok : String → List String) (stop : List String)
    (docs : List String) (q : String) :
    (simScores tok stop docs q).length = docs.length := by
  unfold simScores
  exact List.length_map _ _

/-- Every similarity score is at most `1`. -/
theorem simScores_le_one (tok : String → List String) (stop : List String)
    (docs : List String) (q : String) :
    ∀ s ∈ simScores tok stop docs q, s ≤ 1 := by
  intro s hs
  unfold simScores at hs
  obtain ⟨d, _, rfl⟩ := List.mem_map.mp hs
  exact cosineSim_le_one _ _ _

/-- The corpus text stored at position `i` is the cleaned text of the
name stored at position `i`. -/
theorem corpusAux_get (repo : Repo) (l : List String) :
    ∀ (i : ℕ) (name : String),
      (constructCorpusAux repo l).1.get? i = some name →
      (constructCorpusAux repo l).2.get? i =
        some (preprocessText (getRawText repo name) name) := by
  induction l with
  | nil => intro i name h; simp [constructCorpusAux] at h
  | cons c rest ih =>
    intro i name h
    by_cases hc : isExcluded repo c
    · rw [constructCorpusAux] at h ⊢
      rw [if_pos hc] at h ⊢
      exact ih i name h
    · rw [constructCorpusAux] at h ⊢
      rw [if_neg hc] at h ⊢
      cases i with
      | zero =>
        simp only [List.get?] at h ⊢
        rw [(Option.some_inj.mp h)]
      | succ j =>
        simp only [List.get?] at h ⊢
        exact ih j name h

/-- Positional bound: an index holding the maximal score `1` appears
among the top `n` as soon as `n` exceeds the number of later indices
that also hold score `1` (those are ranked ahead of it by the reversed
stable argsort). -/
theorem mem_topIndices_of_max (S : List ℝ) (i : ℕ) (n : ℤ)
    (hSi : S.get? i = some 1)
    (hle : ∀ s ∈ S, s ≤ 1)
    (hn : (S.enum.countP (fun x => decide (i < x.1) && decide (x.2 = 1)) : ℤ) + 1 ≤ n) :
    i ∈ topIndices S n := by
  have hiL : i < S.length := by
    rcases List.get?_eq_some.mp hSi with ⟨h, _⟩
    exact h
  have hiE : i < S.enum.length := by rw [List.enum_length]; exact hiL
  have hSi' : S[i] = 1 := by
    have := List.get?_eq_getElem? S i
    rw [hSi] at this
    exact (Option.some_inj.mp (List.getElem?_eq_getElem hiL ▸ this.symm))
  have hp : (i, (1 : ℝ)) ∈ S.enum := by
    have hg := List.getElem_enum S i hiE
    rw [hSi'] at hg
    exact hg ▸ List.getElem_mem hiE
  have hpr : (i, (1 : ℝ)) ∈
      (List.insertionSort (fun a b : ℕ × ℝ => a.2 ≤ b.2) S.enum).reverse :=
    List.mem_reverse.mpr ((List.mem_insertionSort _).mpr hp)
  obtain ⟨l₁, l₂, hsplit⟩ := List.append_of_mem hpr
  have hpw := ranked_pairwise S
  rw [hsplit] at hpw
  have hx : ∀ x ∈ l₁, ltLex (i, (1 : ℝ)) x := fun x hxm =>
    (List.pairwise_append.mp hpw).2.2 x hxm _ (List.mem_cons_self _ _)
  -- every element of `l₁` is a later index tied at score 1
  have hsubF : l₁ ⊆ S.enum.filter (fun x => decide (i < x.1) && decide (x.2 = 1)) := by
    intro x hxm
    have hxr : x ∈ (List.insertionSort (fun a b : ℕ × ℝ => a.2 ≤ b.2) S.enum).reverse := by
      rw [hsplit]
      exact List.mem_append_left _ hxm
    have hxe : x ∈ S.enum := (List.mem_insertionSort _).mp (List.mem_reverse.mp hxr)
    have hx2 : x.2 ∈ S := by
      obtain ⟨j, s⟩ := x
      have := List.mem_enum hxe
      rw [this.2]
      exact List.getElem_mem this.1
    have hxle : x.2 ≤ 1 := hle _ hx2
    rcases hx x hxm with hgt | ⟨heq, hlt⟩
    · exact absurd hgt (by simpa using hxle)
    · refine List.mem_filter.mpr ⟨hxe, ?_⟩
      simp [hlt, heq.symm]
  have hnodup : l₁.Nodup := by
    have hen : S.enum.Nodup := by
      have hr : (S.enum.map Prod.fst).Nodup := by
        rw [List.enum_map_fst]
        exact List.nodup_range _
      exact hr.of_map
    have hsorted : (List.insertionSort (fun a b : ℕ × ℝ => a.2 ≤ b.2) S.enum).Nodup :=
      (List.perm_insertionSort (fun a b : ℕ × ℝ => a.2 ≤ b.2) S.enum).symm.nodup hen
    have hrev : ((List.insertionSort (fun a b : ℕ × ℝ => a.2 ≤ b.2) S.enum).reverse).Nodup :=
      List.nodup_reverse.mpr hsorted
    refine List.Nodup.sublist ?_ hrev
    rw [hsplit]
    exact (List.sublist_append_left l₁ _).trans (List.Sublist.refl _)
  have hlen : l₁.length ≤
      S.enum.countP (fun x => decide (i < x.1) && decide (x.2 = 1)) := by
    have := (List.subperm_of_subset hnodup hsubF).length_le
    rwa [← List.countP_eq_length_filter] at this
  -- the slice keeps at least `l₁.length + 1` entries
  have hn0 : ¬ n < 0 := by omega
  have hcnt : l₁.length + 1 ≤ n.toNat := by omega
  rw [topIndices_eq_map, if_neg hn0, hsplit]
  rw [List.take_append_eq_append_take]
  rw [List.take_of_length_le (by omega : l₁.length ≤ n.toNat)]
  obtain ⟨j, hj⟩ : ∃ j, n.toNat - l₁.length = j + 1 := ⟨n.toNat - l₁.length - 1, by omega⟩
  rw [hj, List.take_succ_cons]
  exact List.mem_map.mpr
    ⟨(i, 1), List.mem_append_right _ (List.mem_cons_self _ _), rfl⟩

/-! ### Claim C1: self-similarity -/

/-- C1 (amended): a corpus card whose cleaned text still has at least
one analyzed token scores exactly `1.0` against its own query, and it
appears among the results as soon as `k` exceeds the number of later
corpus entries that also score `1.0` against the query (under the
stable-argsort model those ties are ranked ahead of it); for smaller
`k` a tied later entry can displace the card itself. -/
theorem C1_self_included (tok : String → List String) (stop : List String)
    (repo : Repo) (i : ℕ) (cname : String) (k : ℤ)
    (hname : (constructCorpus repo).1.get? i = some cname)
    (htok : analyzer tok stop (preprocessText (getRawText repo cname) cname) ≠ [])
    (hk : ((simScores tok stop (constructCorpus repo).2
        (preprocessText (getRawText repo cname) cname)).enum.countP
          (fun x => decide (i < x.1) && decide (x.2 = 1)) : ℤ) + 1 ≤ k) :
    (simScores tok stop (constructCorpus repo).2
        (preprocessText (getRawText repo cname) cname)).getD i 0 = 1 ∧
    cname ∈ getSimilarCards tok stop repo cname k := by
  have hdoc : (constructCorpus repo).2.get? i =
      some (preprocessText (getRawText repo cname) cname) :=
    corpusAux_get repo _ i cname hname
  have hqmem : preprocessText (getRawText repo cname) cname ∈ (constructCorpus repo).2 :=
    List.get?_mem hdoc
  obtain ⟨t0, ht0⟩ := List.exists_mem_of_ne_nil _ htok
  have hnz := rawVec_norm_ne_zero tok stop (constructCorpus repo).2
    (preprocessText (getRawText repo cname) cname) t0 hqmem ht0
  have hS : (simScores tok stop (constructCorpus repo).2
      (preprocessText (getRawText repo cname) cname)).get? i = some 1 := by
    unfold simScores
    rw [List.get?_map, hdoc, Option.map_some']
    rw [docVec_self_score tok stop (constructCorpus repo).2
      (preprocessText (getRawText repo cname) cname) hnz]
  have hgd : (simScores tok stop (constructCorpus repo).2
      (preprocessText (getRawText repo cname) cname)).getD i 0 = 1 := by
    rw [List.getD_eq_get?, hS]
    rfl
  refine ⟨hgd, ?_⟩
  have hmem := mem_topIndices_of_max
    (simScores tok stop (constructCorpus repo).2
      (preprocessText (getRawText repo cname) cname)) i k hS
    (simScores_le_one tok stop (constructCorpus repo).2
      (preprocessText (getRawText repo cname) cname)) hk
  show cname ∈ getSimilarTexts tok stop (constructCorpus repo).1
    (constructCorpus repo).2 (preprocessText (getRawText repo cname) cname) k
  unfold getSimilarTexts
  refine List.mem_map.mpr ⟨i, hmem, ?_⟩
  rw [List.getD_eq_get?, hname]
  rfl

/-! ### A concrete two-card corpus with tied scores -/

/-- `preprocessText` when the name contains no separator and does not
occur in the text: only lowercasing and punctuation stripping remain. -/
theorem preprocessText_of_fresh_name (txt name : String)
    (hsep : ¬ ((" // " : String).data <:+: name.data))
    (hni : ¬ name.data <:+: txt.data) :
    preprocessText txt name = ⟨stripPunctL (lowerL txt.data)⟩ := by
  show (⟨stripPunctL (lowerL
    (List.foldl (fun acc n => removeOcc n acc) txt.data
      (splitOnL ((" // " : String).data) name.data)))⟩ : String) = _
  rw [splitOnL_of_no_occurrence _ (by decide) _ hsep]
  rw [List.foldl_cons, List.foldl_nil, removeOcc_of_no_occurrence _ _ hni]

/-- Two cards with identical rules text. -/
def repoCC : Repo :=
  [("A", [⟨some "creature", ["Instant"], ["LEA"]⟩]),
   ("B", [⟨some "creature", ["Instant"], ["LEA"]⟩])]

theorem preprocessCC_A : preprocessText "creature" "A" = "creature" := by
  rw [preprocessText_of_fresh_name _ _ (by decide) (by decide)]
  decide

theorem preprocessCC_B : preprocessText "creature" "B" = "creature" := by
  rw [preprocessText_of_fresh_name _ _ (by decide) (by decide)]
  decide

theorem corpusCC : constructCorpus repoCC = (["A", "B"], ["creature", "creature"]) := by
  have hA : isExcluded repoCC "A" = false := by decide
  have hB : isExcluded repoCC "B" = false := by decide
  have hgA : getRawText repoCC "A" = "creature" := by decide
  have hgB : getRawText repoCC "B" = "creature" := by decide
  show constructCorpusAux repoCC ["A", "B"] = _
  simp [constructCorpusAux, hA, hB, hgA, hgB, preprocessCC_A, preprocessCC_B]

theorem nonzeroCC :
    vecNorm (vocab whitespaceTokenize my_stop_words ["creature", "creature"])
      (rawVec whitespaceTokenize my_stop_words ["creature", "creature"] "creature") ≠ 0 :=
  rawVec_norm_ne_zero _ _ _ _ "creature" (by decide) (by decide)

theorem simScoresCC :
    simScores whitespaceTokenize my_stop_words ["creature", "creature"] "creature" =
      [1, 1] := by
  unfold simScores
  rw [List.map_cons, List.map_cons, List.map_nil]
  rw [docVec_self_score whitespaceTokenize my_stop_words ["creature", "creature"]
    "creature" nonzeroCC]

theorem argsortCC : (argsortAsc [(1 : ℝ), 1]).reverse = [1, 0] := by
  unfold argsortAsc
  rw [show ([(1 : ℝ), 1]).enum = [(0, (1 : ℝ)), (1, 1)] from rfl]
  simp only [List.insertionSort, List.orderedInsert]
  rw [if_pos (le_refl ((1 : ℝ)))]
  rfl

theorem topIndicesCC2 : topIndices [(1 : ℝ), 1] 2 = [1, 0] := by
  unfold topIndices
  rw [if_neg (by decide), argsortCC]
  rfl

theorem topIndicesCC1 : topIndices [(1 : ℝ), 1] 1 = [1] := by
  unfold topIndices
  rw [if_neg (by decide), argsortCC]
  rfl

theorem topIndicesCCm1 : topIndices [(1 : ℝ), 1] (-1) = [1] := by
  unfold topIndices
  rw [if_pos (by decide), argsortCC]
  rfl

/-- C2 counterexample: both corpus entries score `1.0`, yet the result
lists them in reverse corpus order, not insertion order. -/
theorem C2_counterexample :
    simScores whitespaceTokenize my_stop_words ["creature", "creature"] "creature" =
      [1, 1] ∧
    getSimilarTexts whitespaceTokenize my_stop_words ["A", "B"]
      ["creature", "creature"] "creature" 2 = ["B", "A"] := by
  refine ⟨simScoresCC, ?_⟩
  unfold getSimilarTexts
  rw [simScoresCC, topIndicesCC2]
  decide

/-- C1 counterexample: with `k = 1` the card's own query returns only
the later duplicate, not the card itself. -/
theorem C1_counterexample :
    getSimilarCards whitespaceTokenize my_stop_words repoCC "A" 1 = ["B"] ∧
    "A" ∉ getSimilarCards whitespaceTokenize my_stop_words repoCC "A" 1 := by
  have hq : preprocessText (getRawText repoCC "A") "A" = "creature" := by
    rw [show getRawText repoCC "A" = "creature" from by decide]
    exact preprocessCC_A
  have hres : getSimilarCards whitespaceTokenize my_stop_words repoCC "A" 1 = ["B"] := by
    show getSimilarTexts whitespaceTokenize my_stop_words (constructCorpus repoCC).1
      (constructCorpus repoCC).2 (preprocessText (getRawText repoCC "A") "A") 1 = ["B"]
    rw [corpusCC, hq]
    unfold getSimilarTexts
    rw [simScoresCC, topIndicesCC1]
    decide
  exact ⟨hres, by rw [hres]; decide⟩

/-- C3 counterexample: a non-positive result count raises nothing —
`n = 0` returns the empty list and `n = -1` returns a partial result. -/
theorem C3_counterexample :
    getSimilarTexts whitespaceTokenize my_stop_words ["A", "B"]
      ["creature", "creature"] "creature" 0 = [] ∧
    getSimilarTexts whitespaceTokenize my_stop_words ["A", "B"]
      ["creature", "creature"] "creature" (-1) = ["B"] := by
  constructor
  · unfold getSimilarTexts topIndices
    rw [if_neg (by decide)]
    rfl
  · unfold getSimilarTexts
    rw [simScoresCC, topIndicesCCm1]
    decide

/-! ### Claim C3 (amended): behaviour on non-positive counts -/

/-- C3 (amended): a non-positive result count raises no error and is
not rejected — `n = 0` yields the empty list, and a negative `n`
yields the top `corpus size + n` results (Python's negative-slice
semantics), a partial result. -/
theorem C3_nonpositive_no_error (tok : String → List String) (stop : List String)
    (cardNames cardTexts : List String) (cardText : String) :
    getSimilarTexts tok stop cardNames cardTexts cardText 0 = [] ∧
    ∀ n : ℤ, n < 0 →
      (getSimilarTexts tok stop cardNames cardTexts cardText n).length =
        min (cardTexts.length + n).toNat cardTexts.length := by
  constructor
  · unfold getSimilarTexts topIndices
    rw [if_neg (by decide)]
    rfl
  · intro n hn
    unfold getSimilarTexts topIndices
    rw [if_pos hn]
    rw [List.length_map, List.length_take, List.length_reverse]
    rw [argsortAsc, List.length_map, List.length_insertionSort, List.enum_length,
      simScores_length]

theorem C3_nonpositive_no_error_witness :
    (getSimilarTexts whitespaceTokenize my_stop_words ["A"] ["x"] "x" (-1)).length =
      min (((["x"] : List String).length : ℤ) + (-1)).toNat
        (["x"] : List String).length :=
  (C3_nonpositive_no_error whitespaceTokenize my_stop_words ["A"] ["x"] "x").2
    (-1) (by decide)

/-! ### Claim C5: the fitted vectors -/

/-- C5 (amended): for a corpus document with at least one vocabulary
token, every stored coordinate is term frequency times the smoothed
idf `log ((1+N)/(1+df)) + 1` divided by the vector's Euclidean norm,
and the stored vector has unit norm.  (A document with no vocabulary
token keeps the zero vector, of norm `0` — see the counterexample.) -/
theorem C5_fit_normalized (tok : String → List String) (stop : List String)
    (docs : List String) (d : String)
    (hd : d ∈ docs) (t0 : String) (ht : t0 ∈ analyzer tok stop d) :
    vecNorm (vocab tok stop docs) (docVec tok stop docs d) = 1 ∧
    ∀ t ∈ vocab tok stop docs,
      docVec tok stop docs d t =
        (tf tok stop d t : ℝ) *
            (Real.log ((1 + docs.length) / (1 + df tok stop docs t)) + 1) /
          vecNorm (vocab tok stop docs) (rawVec tok stop docs d) := by
  have hnz := rawVec_norm_ne_zero tok stop docs d t0 hd ht
  constructor
  · exact vecNorm_normalizeVec hnz
  · intro t htv
    show normalizeVec (vocab tok stop docs) (rawVec tok stop docs d) t = _
    unfold normalizeVec
    rw [if_neg hnz]
    show rawVec tok stop docs d t / _ = _
    unfold rawVec idf
    rw [if_pos htv]

theorem C5_fit_normalized_witness :
    vecNorm (vocab whitespaceTokenize my_stop_words ["creature"])
      (docVec whitespaceTokenize my_stop_words ["creature"] "creature") = 1 ∧
    ∀ t ∈ vocab whitespaceTokenize my_stop_words ["creature"],
      docVec whitespaceTokenize my_stop_words ["creature"] "creature" t =
        (tf whitespaceTokenize my_stop_words "creature" t : ℝ) *
            (Real.log ((1 + (["creature"] : List String).length) /
              (1 + df whitespaceTokenize my_stop_words ["creature"] t)) + 1) /
          vecNorm (vocab whitespaceTokenize my_stop_words ["creature"])
            (rawVec whitespaceTokenize my_stop_words ["creature"] "creature") :=
  C5_fit_normalized whitespaceTokenize my_stop_words ["creature"] "creature"
    (by decide) "creature" (by decide)

/-- C5 counterexample: a corpus document with no vocabulary token (the
empty text) keeps the all-zero stored vector, whose norm is `0`, not
`1` — so not every stored document vector is unit-normalized. -/
theorem C5_counterexample :
    vecNorm (vocab whitespaceTokenize my_stop_words ["creature", ""])
      (docVec whitespaceTokenize my_stop_words ["creature", ""] "") = 0 ∧
    (0 : ℝ) ≠ 1 := by
  have hzero : rawVec whitespaceTokenize my_stop_words ["creature", ""] "" =
      fun _ => (0 : ℝ) := by
    funext t
    unfold rawVec
    have htf : tf whitespaceTokenize my_stop_words "" t = 0 := by
      unfold tf
      rw [show analyzer whitespaceTokenize my_stop_words "" = [] from by decide]
      rfl
    rw [htf]
    simp
  have hnorm0 : vecNorm (vocab whitespaceTokenize my_stop_words ["creature", ""])
      (rawVec whitespaceTokenize my_stop_words ["creature", ""] "") = 0 := by
    rw [hzero]
    unfold vecNorm
    simp
  constructor
  · unfold docVec normalizeVec
    rw [if_pos hnorm0, hnorm0]
  · norm_num

/-- A one-card repository for the self-similarity witness. -/
def repoOne : Repo := [("A", [⟨some "creature", ["Instant"], ["LEA"]⟩])]

theorem repoOne_query : preprocessText (getRawText repoOne "A") "A" = "creature" := by
  rw [show getRawText repoOne "A" = "creature" from by decide]
  exact preprocessCC_A

theorem repoOne_texts : (constructCorpus repoOne).2 = ["creature"] := by
  show (constructCorpusAux repoOne ["A"]).2 = _
  simp [constructCorpusAux, show isExcluded repoOne "A" = false from by decide,
    show getRawText repoOne "A" = "creature" from by decide, preprocessCC_A]

theorem C1_self_included_witness :
    (simScores whitespaceTokenize my_stop_words (constructCorpus repoOne).2
        (preprocessText (getRawText repoOne "A") "A")).getD 0 0 = 1 ∧
    "A" ∈ getSimilarCards whitespaceTokenize my_stop_words repoOne "A" 1 := by
  refine C1_self_included whitespaceTokenize my_stop_words repoOne 0 "A" 1 ?_ ?_ ?_
  · decide
  · rw [repoOne_query]
    decide
  · rw [repoOne_texts, repoOne_query]
    unfold simScores
    rw [List.map_cons, List.map_nil]
    norm_num [List.countP_cons, List.countP_nil]

end CardSim
